import Mathlib

/-!
Shallow embedding of the version-ordered branch selector of
`scripts/template.ts` (functions `parseVersion`, `compareVersions`,
`findLatestBranch`), together with proofs of the specification's
testable properties.

JavaScript numbers that can arise in this code are modelled by the
inductive type `JsNum`: an integer-valued double, the two infinities,
or NaN.  `Number()` on a digit string is modelled with the genuine
IEEE-754 behaviour: exact below `2 ^ 53`, rounded to the nearest
double (ties to even) above it, `Infinity` beyond the double range
(`roundToDouble`).  Strings are processed through their character
lists (`String.data`), and `split`, `replace`, `startsWith` and
`Array.prototype.sort` are given explicit executable models.
-/

set_option linter.unnecessarySeqFocus false

namespace Sandstone

/-- A JavaScript number as it can occur in the version-comparison code:
an exact integer, positive or negative infinity, or NaN. -/
inductive JsNum where
  | num (n : Int)
  | inf
  | neginf
  | nan
deriving DecidableEq, Repr

/-- JavaScript strict equality `===` on `JsNum`: `NaN === x` is false for
every `x`, including `NaN` itself. -/
def jsEq : JsNum → JsNum → Bool
  | JsNum.num a, JsNum.num b => a == b
  | JsNum.inf, JsNum.inf => true
  | JsNum.neginf, JsNum.neginf => true
  | _, _ => false

/-- JavaScript strict inequality `!==` on `JsNum`. -/
def jsNeq (a b : JsNum) : Bool := !(jsEq a b)

/-- JavaScript subtraction on `JsNum` (`partA - partB` in the source):
any NaN operand gives NaN, `Infinity - Infinity` is NaN, an infinity
against a finite number keeps its sign. -/
def jsSub : JsNum → JsNum → JsNum
  | JsNum.nan, _ => JsNum.nan
  | _, JsNum.nan => JsNum.nan
  | JsNum.num a, JsNum.num b => JsNum.num (a - b)
  | JsNum.num _, JsNum.inf => JsNum.neginf
  | JsNum.num _, JsNum.neginf => JsNum.inf
  | JsNum.inf, JsNum.num _ => JsNum.inf
  | JsNum.inf, JsNum.inf => JsNum.nan
  | JsNum.inf, JsNum.neginf => JsNum.inf
  | JsNum.neginf, JsNum.num _ => JsNum.neginf
  | JsNum.neginf, JsNum.inf => JsNum.neginf
  | JsNum.neginf, JsNum.neginf => JsNum.nan

/-- Is this JavaScript number strictly negative ("less than" result)? -/
def jsNeg : JsNum → Bool
  | JsNum.num n => decide (n < 0)
  | JsNum.neginf => true
  | _ => false

/-- Is this JavaScript number strictly positive ("greater than" result)? -/
def jsPos : JsNum → Bool
  | JsNum.num n => decide (0 < n)
  | JsNum.inf => true
  | _ => false

/-- ECMAScript `SortCompare` reading of a comparator result: "keep `x`
before `y`" when the result is negative, zero, or NaN (NaN is treated
as `+0` by the sort). -/
def jsSortLe : JsNum → Bool
  | JsNum.num n => decide (n ≤ 0)
  | JsNum.neginf => true
  | JsNum.inf => false
  | JsNum.nan => true

/-- JavaScript `String.prototype.split` with a single-character
separator, on character lists: `"".split(c)` is `[""]`, separators at
the ends produce empty groups. -/
def splitOnChar (sep : Char) : List Char → List (List Char)
  | [] => [[]]
  | c :: cs =>
    match splitOnChar sep cs with
    | [] => [[]]
    | g :: gs => if c = sep then [] :: g :: gs else (c :: g) :: gs

/-- Rebuild a string from the groups `splitOnChar` produced, used to
reason about which characters a split input contained. -/
def joinSep (sep : Char) : List (List Char) → List Char
  | [] => []
  | [g] => g
  | g :: gs => g ++ sep :: joinSep sep gs

/-- A non-empty, all-decimal-digit character list (the `\d+` of the
pre-release regex, and the numeric groups of a well-formed main part). -/
def isDigits (cs : List Char) : Bool := !cs.isEmpty && cs.all (fun c => c.isDigit)

/-- Decimal value of a digit list, most significant digit first. -/
def digitsToNat (cs : List Char) : Nat :=
  cs.foldl (fun acc c => acc * 10 + (c.toNat - '0'.toNat)) 0

/-- Number of binary digits of `n` (0 for 0), computed with a
structural fuel argument so that it reduces in the kernel; `bitLen`
supplies fuel `n`, which always suffices since the argument halves at
every step. -/
def bitLenAux : Nat → Nat → Nat
  | 0, _ => 0
  | fuel + 1, n => if n < 2 then n else bitLenAux fuel (n / 2) + 1

/-- Number of binary digits of `n`. -/
def bitLen (n : Nat) : Nat := bitLenAux n n

/-- Rounding of a non-negative integer to the nearest IEEE-754 double
(ties to even), the value JavaScript's `Number()` produces for a digit
string: integers below `2 ^ 53` are exact; larger ones keep their top
53 bits, rounding the rest to nearest-even; integers that round to
`2 ^ 1024` or beyond become `Infinity`. -/
def roundToDouble (n : Nat) : JsNum :=
  if n < 2 ^ 53 then JsNum.num n
  else
    let shift := bitLen n - 53
    let q := n / 2 ^ shift
    let r := n % 2 ^ shift
    let half := 2 ^ (shift - 1)
    let q' := if half < r ∨ (r = half ∧ q % 2 = 1) then q + 1 else q
    if 2 ^ 1024 ≤ q' * 2 ^ shift then JsNum.inf
    else JsNum.num (q' * 2 ^ shift)

/-- JavaScript `Number()` coercion on the dot-free, hyphen-free segments
this code feeds it: `Number("")` is `0`, a digit string is its decimal
value rounded to the nearest double (`roundToDouble`, so values beyond
`2 ^ 53` lose precision and astronomically large ones overflow to
`Infinity`), the literal `"Infinity"` is `Infinity`, and everything
else that occurs here is NaN.  (Exotic numeric forms — whitespace
padding, exponents, hex — also exist in JavaScript; no segment handled
by this repository takes those shapes, and no property below depends on
how they coerce.) -/
def jsToNumberL (cs : List Char) : JsNum :=
  if cs.isEmpty then JsNum.num 0
  else if cs.all (fun c => c.isDigit) then roundToDouble (digitsToNat cs)
  else if cs = "Infinity".data then JsNum.inf
  else JsNum.nan

/-- The regex `/^(alpha|beta|rc)\.(\d+)$/` split into its stage
alternation: on success, the stage's rank (`alpha` ↦ 0, `beta` ↦ 1,
`rc` ↦ 2, the `prereleaseOrder` table of the source) and the remaining
characters after the dot. -/
def matchStage (p : List Char) : Option (Nat × List Char) :=
  if List.isPrefixOf "alpha.".data p then some (0, p.drop 6)
  else if List.isPrefixOf "beta.".data p then some (1, p.drop 5)
  else if List.isPrefixOf "rc.".data p then some (2, p.drop 3)
  else none

/-- Full match of `/^(alpha|beta|rc)\.(\d+)$/`: stage rank and the
digit capture, read as the exact decimal numeral it spells (a `Nat`
standing for the captured string).  The source's `Number(num)` — with
its double rounding — is applied where the source applies it, when
`parseVersion` pushes the component. -/
def matchPre (p : List Char) : Option (Nat × Nat) :=
  match matchStage p with
  | some (r, ds) => if isDigits ds then some (r, digitsToNat ds) else none
  | none => none

/-- The `main` binding of `parseVersion`: first group of
`version.split('-')`. -/
def versionMainPart (s : String) : List Char :=
  (splitOnChar '-' s.data).headD []

/-- The `prerelease` binding of `parseVersion`: second group of
`version.split('-')` when present.  `undefined` (no second group) and
an empty second group are identified, exactly as the source's falsy
test `!prerelease` does. -/
def versionPrePart (s : String) : List Char :=
  ((splitOnChar '-' s.data)[1]?).getD []

/-- The `mainParts` binding of `parseVersion`:
`main.split('.').map(Number)`. -/
def mainKey (s : String) : List JsNum :=
  (splitOnChar '.' (versionMainPart s)).map jsToNumberL

/-- `parseVersion` of `scripts/template.ts`: the comparison key of a
version string.  No pre-release part appends the `Infinity, Infinity`
sentinels; a part matching `/^(alpha|beta|rc)\.(\d+)$/` appends the
stage rank and `Number()` of the captured digits (double-rounded); any
other part appends the `-1, -1` fallback. -/
def parseVersion (version : String) : List JsNum :=
  if (versionPrePart version).isEmpty then
    mainKey version ++ [JsNum.inf, JsNum.inf]
  else
    match matchPre (versionPrePart version) with
    | some (r, n) => mainKey version ++ [JsNum.num r, roundToDouble n]
    | none => mainKey version ++ [JsNum.num (-1), JsNum.num (-1)]

/-- The comparison loop of `compareVersions` once the first key is
exhausted: remaining positions read `0` for the first key
(`partsA[i] ?? 0`) against each leftover component of the second key. -/
def compareTail : List JsNum → JsNum
  | [] => JsNum.num 0
  | b :: l2 =>
    if jsNeq (JsNum.num 0) b then jsSub (JsNum.num 0) b else compareTail l2

/-- The loop of `compareVersions` on the two keys: positions are
compared with `!==` up to the longer length, a missing position reads
`0`, and the first differing position returns `partA - partB`. -/
def compareParts : List JsNum → List JsNum → JsNum
  | [], l2 => compareTail l2
  | a :: l1, l2 =>
    let b := l2.headD (JsNum.num 0)
    if jsNeq a b then jsSub a b else compareParts l1 l2.tail

/-- `compareVersions` of `scripts/template.ts`. -/
def compareVersions (a b : String) : JsNum :=
  compareParts (parseVersion a) (parseVersion b)

/-- JavaScript `String.prototype.replace` with a string pattern and
empty replacement: remove the first occurrence of `pat`, leave the
string unchanged when `pat` does not occur. -/
def removeFirstL (s pat : List Char) : List Char :=
  match s with
  | [] => []
  | c :: rest =>
    if List.isPrefixOf pat (c :: rest) then (c :: rest).drop pat.length
    else c :: removeFirstL rest pat

/-- String wrapper for `removeFirstL` (`a.replace(pat, '')`). -/
def removeFirst (s pat : String) : String := ⟨removeFirstL s.data pat.data⟩

/-- Insert one element into a sorted list, keeping it before the first
element it need not follow — the insertion step of a stable sort. -/
def insertBy (le : α → α → Bool) (x : α) : List α → List α
  | [] => [x]
  | y :: ys => if le x y then x :: y :: ys else y :: insertBy le x ys

/-- Stable insertion sort, modelling `Array.prototype.sort` (stable
since ES2019).  Every property proved below about the selector is
independent of the particular sort algorithm: it only uses that the
output is built from the input's elements and is non-empty exactly
when the input is. -/
def sortBy (le : α → α → Bool) : List α → List α
  | [] => []
  | x :: xs => insertBy le x (sortBy le xs)

/-- The comparator closure passed to `sort` in `findLatestBranch`:
`compareVersions(versionB, versionA)` on the branch names with the
`"<prefix>-"` pattern removed — descending version order. -/
def branchCmp (pfx a b : String) : JsNum :=
  compareVersions (removeFirst b (pfx ++ "-")) (removeFirst a (pfx ++ "-"))

/-- `findLatestBranch` of `scripts/template.ts`: keep the branches that
start with `"<prefix>-"`, return `null` when none do, otherwise the
first element of the list sorted in descending version order. -/
def findLatestBranch (branches : List String) (pfx : String) : Option String :=
  if (branches.filter (fun b => List.isPrefixOf (pfx ++ "-").data b.data)).isEmpty
  then none
  else (sortBy (fun a b => jsSortLe (branchCmp pfx a b))
    (branches.filter (fun b => List.isPrefixOf (pfx ++ "-").data b.data))).head?

/-- The specification's data-model grammar for the main part:
exactly `MAJOR.MINOR.PATCH` with three non-empty decimal groups. -/
def wellFormedMain (cs : List Char) : Bool :=
  match splitOnChar '.' cs with
  | [a, b, c] => isDigits a && isDigits b && isDigits c
  | _ => false

/-- The specification's data-model grammar for a version string:
`MAJOR.MINOR.PATCH`, optionally followed by `-STAGE.NUMBER` with
`STAGE ∈ {alpha, beta, rc}`. -/
def wellFormedVersion (s : String) : Bool :=
  match splitOnChar '-' s.data with
  | [m] => wellFormedMain m
  | [m, p] => wellFormedMain m && (matchPre p).isSome
  | _ => false

/-! Helper lemmas about the JavaScript number operations. -/

theorem jsEq_symm (a b : JsNum) : jsEq a b = jsEq b a := by
  cases a <;> cases b <;> simp [jsEq, BEq.comm]

theorem jsEq_refl (a : JsNum) (h : a ≠ JsNum.nan) : jsEq a a = true := by
  cases a <;> simp [jsEq] at h ⊢

theorem jsSub_antisym (a b : JsNum) (h : jsNeg (jsSub a b) = true) :
    jsPos (jsSub b a) = true := by
  cases a <;> cases b <;> simp [jsSub, jsNeg, jsPos] at h ⊢ <;> omega

/-! Helper lemmas about the comparison loop. -/

theorem compareParts_nil (l : List JsNum) : compareParts [] l = compareTail l := rfl

theorem compareParts_refl (l : List JsNum) (h : JsNum.nan ∉ l) :
    compareParts l l = JsNum.num 0 := by
  induction l with
  | nil => rfl
  | cons x l ih =>
    have hx : x ≠ JsNum.nan := fun hx => h (hx ▸ List.mem_cons_self x l)
    have hl : JsNum.nan ∉ l := fun hm => h (List.mem_cons_of_mem x hm)
    simp [compareParts, jsNeq, jsEq_refl x hx, ih hl]

theorem compareParts_append (m l1 l2 : List JsNum) (h : JsNum.nan ∉ m) :
    compareParts (m ++ l1) (m ++ l2) = compareParts l1 l2 := by
  induction m with
  | nil => rfl
  | cons x m ih =>
    have hx : x ≠ JsNum.nan := fun hx => h (hx ▸ List.mem_cons_self x m)
    have hm : JsNum.nan ∉ m := fun hmm => h (List.mem_cons_of_mem x hmm)
    simp [compareParts, jsNeq, jsEq_refl x hx, ih hm]

theorem compareTail_antisym (l : List JsNum) (h : jsNeg (compareTail l) = true) :
    jsPos (compareParts l []) = true := by
  induction l with
  | nil => simp [compareTail, jsNeg] at h
  | cons b l ih =>
    by_cases hne : jsNeq (JsNum.num 0) b = true
    · have hne' : jsNeq b (JsNum.num 0) = true := by
        unfold jsNeq at hne ⊢; rw [jsEq_symm]; exact hne
      simp only [compareTail, hne, if_pos] at h
      simp only [compareParts, List.headD, hne', if_pos]
      exact jsSub_antisym _ _ h
    · have hne' : ¬jsNeq b (JsNum.num 0) = true := by
        unfold jsNeq at hne ⊢; rw [jsEq_symm]; exact hne
      simp only [compareTail, hne, if_neg, Bool.not_eq_true] at h
      simp only [compareParts, List.headD, hne', if_neg, Bool.not_eq_true]
      exact ih h

theorem compareParts_antisym (l1 l2 : List JsNum)
    (h : jsNeg (compareParts l1 l2) = true) :
    jsPos (compareParts l2 l1) = true := by
  induction l1 generalizing l2 with
  | nil => exact compareTail_antisym l2 h
  | cons a l1 ih =>
    cases l2 with
    | nil =>
      by_cases hne : jsNeq a (JsNum.num 0) = true
      · have hne' : jsNeq (JsNum.num 0) a = true := by
          unfold jsNeq at hne ⊢; rw [jsEq_symm]; exact hne
        simp only [compareParts, List.headD, hne, if_pos] at h
        simp only [compareParts_nil, compareTail, hne', if_pos]
        exact jsSub_antisym _ _ h
      · have hne' : ¬jsNeq (JsNum.num 0) a = true := by
          unfold jsNeq at hne ⊢; rw [jsEq_symm]; exact hne
        simp only [compareParts, List.headD, hne, if_neg, Bool.not_eq_true] at h
        simp only [compareParts_nil, compareTail, hne', if_neg, Bool.not_eq_true]
        have := ih [] (by simpa [List.tail] using h)
        simpa [compareParts_nil] using this
    | cons b l2 =>
      by_cases hne : jsNeq a b = true
      · have hne' : jsNeq b a = true := by
          unfold jsNeq at hne ⊢; rw [jsEq_symm]; exact hne
        simp only [compareParts, List.headD, hne, hne', if_pos] at h ⊢
        exact jsSub_antisym _ _ h
      · have hne' : ¬jsNeq b a = true := by
          unfold jsNeq at hne ⊢; rw [jsEq_symm]; exact hne
        simp only [compareParts, List.headD, hne, hne', if_neg,
          Bool.not_eq_true, List.tail_cons] at h ⊢
        exact ih l2 h

/-! Helper lemmas about `splitOnChar`. -/

theorem splitOnChar_ne_nil (sep : Char) (l : List Char) : splitOnChar sep l ≠ [] := by
  cases l with
  | nil => simp [splitOnChar]
  | cons c cs =>
    simp only [splitOnChar]
    match h : splitOnChar sep cs with
    | [] => simp
    | g :: gs => by_cases hc : c = sep <;> simp [hc]

theorem splitOnChar_of_not_mem (sep : Char) (l : List Char) (h : sep ∉ l) :
    splitOnChar sep l = [l] := by
  induction l with
  | nil => rfl
  | cons c cs ih =>
    have hc : c ≠ sep := fun hc => h (hc ▸ List.mem_cons_self c cs)
    have hcs : sep ∉ cs := fun hm => h (List.mem_cons_of_mem c hm)
    simp [splitOnChar, ih hcs, hc]

theorem splitOnChar_append (sep : Char) (xs ys : List Char) (h : sep ∉ xs) :
    splitOnChar sep (xs ++ sep :: ys) = xs :: splitOnChar sep ys := by
  induction xs with
  | nil =>
    simp only [List.nil_append, splitOnChar]
    match hy : splitOnChar sep ys with
    | [] => exact absurd hy (splitOnChar_ne_nil sep ys)
    | g :: gs => simp
  | cons c cs ih =>
    have hc : c ≠ sep := fun hc => h (hc ▸ List.mem_cons_self c cs)
    have hcs : sep ∉ cs := fun hm => h (List.mem_cons_of_mem c hm)
    rw [List.cons_append]
    simp only [splitOnChar]
    rw [ih hcs]
    simp [hc]

theorem joinSep_splitOnChar (sep : Char) (l : List Char) :
    joinSep sep (splitOnChar sep l) = l := by
  induction l with
  | nil => rfl
  | cons c cs ih =>
    simp only [splitOnChar]
    match h : splitOnChar sep cs with
    | [] => exact absurd h (splitOnChar_ne_nil sep cs)
    | [g] =>
      rw [h] at ih
      have ih' : g = cs := ih
      by_cases hc : c = sep
      · show joinSep sep (if c = sep then [[], g] else [c :: g]) = c :: cs
        rw [if_pos hc, hc]
        show sep :: g = sep :: cs
        rw [ih']
      · show joinSep sep (if c = sep then [[], g] else [c :: g]) = c :: cs
        rw [if_neg hc]
        show c :: g = c :: cs
        rw [ih']
    | g :: g2 :: gs =>
      rw [h] at ih
      by_cases hc : c = sep
      · show joinSep sep
            (if c = sep then [] :: g :: g2 :: gs else (c :: g) :: g2 :: gs) = c :: cs
        rw [if_pos hc, hc]
        show sep :: joinSep sep (g :: g2 :: gs) = sep :: cs
        rw [ih]
      · show joinSep sep
            (if c = sep then [] :: g :: g2 :: gs else (c :: g) :: g2 :: gs) = c :: cs
        rw [if_neg hc]
        show (c :: g) ++ sep :: joinSep sep (g2 :: gs) = c :: cs
        have ih' : g ++ sep :: joinSep sep (g2 :: gs) = cs := ih
        rw [List.cons_append, ih']

/-! Helper lemmas about digits and `Number()`. -/

theorem roundToDouble_small (n : Nat) (h : n < 2 ^ 53) :
    roundToDouble n = JsNum.num n := by
  unfold roundToDouble
  rw [if_pos h]

theorem roundToDouble_ne_nan (n : Nat) : roundToDouble n ≠ JsNum.nan := by
  unfold roundToDouble
  by_cases h : n < 2 ^ 53
  · rw [if_pos h]
    simp
  · rw [if_neg h]
    dsimp only
    split <;> split <;> simp

theorem jsToNumberL_of_isDigits (cs : List Char) (h : isDigits cs = true) :
    jsToNumberL cs = roundToDouble (digitsToNat cs) := by
  unfold isDigits at h
  simp only [Bool.and_eq_true] at h
  have h1 : cs.isEmpty = false := by simpa using h.1
  unfold jsToNumberL
  rw [h1, if_neg (by simp), h.2, if_pos rfl]

theorem not_dash_of_isDigits (cs : List Char) (h : isDigits cs = true) :
    '-' ∉ cs := by
  intro hm
  unfold isDigits at h
  simp only [Bool.and_eq_true, List.all_eq_true] at h
  have := h.2 '-' hm
  simp [Char.isDigit] at this

theorem wellFormedMain_structure (m : List Char) (h : wellFormedMain m = true) :
    ∃ a b c, splitOnChar '.' m = [a, b, c] ∧
      isDigits a = true ∧ isDigits b = true ∧ isDigits c = true := by
  unfold wellFormedMain at h
  match hs : splitOnChar '.' m with
  | [a, b, c] =>
    rw [hs] at h
    simp only [Bool.and_eq_true] at h
    exact ⟨a, b, c, rfl, h.1.1, h.1.2, h.2⟩
  | [] => rw [hs] at h; simp at h
  | [_] => rw [hs] at h; simp at h
  | [_, _] => rw [hs] at h; simp at h
  | _ :: _ :: _ :: _ :: _ => rw [hs] at h; simp at h

theorem wellFormedMain_no_dash (m : List Char) (h : wellFormedMain m = true) :
    '-' ∉ m := by
  obtain ⟨a, b, c, hs, ha, hb, hc⟩ := wellFormedMain_structure m h
  have hj := joinSep_splitOnChar '.' m
  rw [hs] at hj
  simp only [joinSep] at hj
  intro hm
  rw [← hj] at hm
  simp only [List.mem_append, List.mem_cons] at hm
  rcases hm with (h1 | (h2 | (h3 | h4)))
  · exact not_dash_of_isDigits a ha h1
  · exact absurd h2 (by decide)
  · exact not_dash_of_isDigits b hb h3
  · rcases h4 with (h5 | h6)
    · exact absurd h5 (by decide)
    · exact not_dash_of_isDigits c hc h6

theorem wellFormedMain_key_noNan (m : List Char) (h : wellFormedMain m = true) :
    JsNum.nan ∉ (splitOnChar '.' m).map jsToNumberL := by
  obtain ⟨a, b, c, hs, ha, hb, hc⟩ := wellFormedMain_structure m h
  rw [hs]
  intro hmem
  simp only [List.map_cons, List.map_nil, List.mem_cons, List.not_mem_nil,
    or_false, jsToNumberL_of_isDigits a ha, jsToNumberL_of_isDigits b hb,
    jsToNumberL_of_isDigits c hc] at hmem
  rcases hmem with h1 | h1 | h1 <;> exact roundToDouble_ne_nan _ h1.symm

/-! Structure of the pre-release regex match. -/

theorem matchStage_structure (p : List Char) (r : Nat) (ds : List Char)
    (h : matchStage p = some (r, ds)) :
    ∃ stage, p = stage ++ ds ∧
      (stage = "alpha.".data ∨ stage = "beta.".data ∨ stage = "rc.".data) := by
  unfold matchStage at h
  by_cases h1 : List.isPrefixOf "alpha.".data p = true
  · rw [if_pos h1] at h
    obtain ⟨t, ht⟩ := List.isPrefixOf_iff_prefix.mp h1
    simp only [Option.some.injEq, Prod.mk.injEq] at h
    refine ⟨"alpha.".data, ?_, Or.inl rfl⟩
    rw [← h.2, ← ht]
    congr 1
  · rw [if_neg h1] at h
    by_cases h2 : List.isPrefixOf "beta.".data p = true
    · rw [if_pos h2] at h
      obtain ⟨t, ht⟩ := List.isPrefixOf_iff_prefix.mp h2
      simp only [Option.some.injEq, Prod.mk.injEq] at h
      refine ⟨"beta.".data, ?_, Or.inr (Or.inl rfl)⟩
      rw [← h.2, ← ht]
      congr 1
    · rw [if_neg h2] at h
      by_cases h3 : List.isPrefixOf "rc.".data p = true
      · rw [if_pos h3] at h
        obtain ⟨t, ht⟩ := List.isPrefixOf_iff_prefix.mp h3
        simp only [Option.some.injEq, Prod.mk.injEq] at h
        refine ⟨"rc.".data, ?_, Or.inr (Or.inr rfl)⟩
        rw [← h.2, ← ht]
        congr 1
      · rw [if_neg h3] at h
        cases h

theorem matchPre_structure (p : List Char) (x : Nat × Nat)
    (h : matchPre p = some x) :
    ∃ r ds, matchStage p = some (r, ds) ∧ isDigits ds = true ∧
      x = (r, digitsToNat ds) := by
  unfold matchPre at h
  match hms : matchStage p with
  | none => rw [hms] at h; cases h
  | some (r, ds) =>
    rw [hms] at h
    have h' : (if isDigits ds = true then some (r, digitsToNat ds) else none)
        = some x := h
    by_cases hd : isDigits ds = true
    · rw [if_pos hd] at h'
      exact ⟨r, ds, rfl, hd, (Option.some.injEq _ _ ▸ h').symm⟩
    · rw [if_neg hd] at h'
      cases h'

theorem matchPre_no_dash (p : List Char) (x : Nat × Nat)
    (h : matchPre p = some x) : '-' ∉ p := by
  obtain ⟨r, ds, hms, hd, _⟩ := matchPre_structure p x h
  obtain ⟨stage, hp, hstage⟩ := matchStage_structure p r ds hms
  intro hm
  rw [hp] at hm
  rcases List.mem_append.mp hm with h1 | h2
  · rcases hstage with h3 | h3 | h3 <;> rw [h3] at h1 <;> exact absurd h1 (by decide)
  · exact not_dash_of_isDigits ds hd h2

theorem matchPre_ne_nil (p : List Char) (x : Nat × Nat)
    (h : matchPre p = some x) : p ≠ [] := by
  obtain ⟨r, ds, hms, hd, _⟩ := matchPre_structure p x h
  obtain ⟨stage, hp, hstage⟩ := matchStage_structure p r ds hms
  rw [hp]
  intro he
  have := (List.append_eq_nil.mp he).1
  rcases hstage with h3 | h3 | h3 <;> rw [h3] at this <;> exact absurd this (by decide)

/-! Characterizations of `parseVersion` on dash-free and
`main ++ "-" ++ pre` inputs. -/

theorem versionMainPart_of_no_dash (s : String) (h : '-' ∉ s.data) :
    versionMainPart s = s.data := by
  unfold versionMainPart
  rw [splitOnChar_of_not_mem '-' s.data h]
  rfl

theorem versionPrePart_of_no_dash (s : String) (h : '-' ∉ s.data) :
    versionPrePart s = [] := by
  unfold versionPrePart
  rw [splitOnChar_of_not_mem '-' s.data h]
  rfl

theorem data_append3 (m p : String) :
    (m ++ "-" ++ p).data = m.data ++ '-' :: p.data := by
  rw [String.data_append, String.data_append]
  simp

theorem versionMainPart_append (m p : String) (hm : '-' ∉ m.data) :
    versionMainPart (m ++ "-" ++ p) = m.data := by
  unfold versionMainPart
  rw [data_append3, splitOnChar_append '-' m.data p.data hm]
  rfl

theorem versionPrePart_append (m p : String) (hm : '-' ∉ m.data)
    (hp : '-' ∉ p.data) : versionPrePart (m ++ "-" ++ p) = p.data := by
  unfold versionPrePart
  rw [data_append3, splitOnChar_append '-' m.data p.data hm,
    splitOnChar_of_not_mem '-' p.data hp]
  rfl

theorem parseVersion_no_dash (s : String) (h : '-' ∉ s.data) :
    parseVersion s =
      (splitOnChar '.' s.data).map jsToNumberL ++ [JsNum.inf, JsNum.inf] := by
  unfold parseVersion mainKey
  rw [versionPrePart_of_no_dash s h, versionMainPart_of_no_dash s h]
  rfl

theorem parseVersion_release (s : String) (h : '-' ∉ s.data) :
    parseVersion s = mainKey s ++ [JsNum.inf, JsNum.inf] := by
  unfold parseVersion
  rw [versionPrePart_of_no_dash s h]
  rfl

theorem parseVersion_append_pre (m p : String) (r n : Nat)
    (hm : '-' ∉ m.data) (hmp : matchPre p.data = some (r, n)) :
    parseVersion (m ++ "-" ++ p) =
      (splitOnChar '.' m.data).map jsToNumberL ++ [JsNum.num r, roundToDouble n] := by
  have hp : '-' ∉ p.data := matchPre_no_dash p.data (r, n) hmp
  have hne : p.data ≠ [] := matchPre_ne_nil p.data (r, n) hmp
  have hempty : p.data.isEmpty = false := by
    cases hd : p.data with
    | nil => exact absurd hd hne
    | cons c cs => rfl
  unfold parseVersion mainKey
  rw [versionPrePart_append m p hm hp, versionMainPart_append m p hm, hempty, hmp]
  rfl

/-! Comparison of the two-component tails of equal-main keys. -/

theorem compareParts_pair (a1 b1 a2 b2 : Int) :
    compareParts [JsNum.num a1, JsNum.num b1] [JsNum.num a2, JsNum.num b2] =
      if a1 = a2 then (if b1 = b2 then JsNum.num 0 else JsNum.num (b1 - b2))
      else JsNum.num (a1 - a2) := by
  by_cases h1 : a1 = a2 <;> by_cases h2 : b1 = b2 <;>
    simp [compareParts, compareTail, jsNeq, jsEq, jsSub, h1, h2]

/-! Lemmas about the sort model. -/

theorem mem_insertBy (le : α → α → Bool) (x a : α) (l : List α) :
    a ∈ insertBy le x l ↔ a = x ∨ a ∈ l := by
  induction l with
  | nil => simp [insertBy]
  | cons y ys ih =>
    by_cases h : le x y = true <;> simp [insertBy, h, ih] <;> tauto

theorem mem_sortBy (le : α → α → Bool) (a : α) (l : List α) :
    a ∈ sortBy le l ↔ a ∈ l := by
  induction l with
  | nil => simp [sortBy]
  | cons x xs ih => simp [sortBy, mem_insertBy, ih]

theorem insertBy_ne_nil (le : α → α → Bool) (x : α) (l : List α) :
    insertBy le x l ≠ [] := by
  cases l with
  | nil => simp [insertBy]
  | cons y ys => by_cases h : le x y = true <;> simp [insertBy, h]

theorem sortBy_ne_nil (le : α → α → Bool) (x : α) (xs : List α) :
    sortBy le (x :: xs) ≠ [] :=
  insertBy_ne_nil le x (sortBy le xs)

/-! Selector lemmas. -/

theorem findLatestBranch_mem (bs : List String) (p r : String)
    (h : findLatestBranch bs p = some r) :
    r ∈ bs ∧ List.isPrefixOf (p ++ "-").data r.data = true := by
  unfold findLatestBranch at h
  by_cases hf :
      (bs.filter fun b => List.isPrefixOf (p ++ "-").data b.data).isEmpty = true
  · rw [if_pos hf] at h
    cases h
  · rw [if_neg hf] at h
    match hs : sortBy (fun a b => jsSortLe (branchCmp p a b))
        (bs.filter fun b => List.isPrefixOf (p ++ "-").data b.data) with
    | [] =>
      rw [hs] at h
      cases h
    | y :: ys =>
      rw [hs] at h
      have hyr : y = r := by
        have : some y = some r := h
        exact Option.some.injEq y r ▸ this
      have hmem : r ∈ sortBy (fun a b => jsSortLe (branchCmp p a b))
          (bs.filter fun b => List.isPrefixOf (p ++ "-").data b.data) := by
        rw [hs, hyr] at *
        exact List.mem_cons_self r ys
      have hfil := (mem_sortBy _ _ _).mp hmem
      exact List.mem_filter.mp hfil

theorem findLatestBranch_none_iff (bs : List String) (p : String) :
    (findLatestBranch bs p).isNone =
      bs.all (fun b => !(List.isPrefixOf (p ++ "-").data b.data)) := by
  unfold findLatestBranch
  by_cases hf :
      (bs.filter fun b => List.isPrefixOf (p ++ "-").data b.data).isEmpty = true
  · rw [if_pos hf]
    have hnil : bs.filter (fun b => List.isPrefixOf (p ++ "-").data b.data) = [] := by
      simpa using hf
    have hall := List.filter_eq_nil_iff.mp hnil
    have hrhs : bs.all (fun b => !(List.isPrefixOf (p ++ "-").data b.data)) = true := by
      rw [List.all_eq_true]
      intro b hb
      cases hpred : List.isPrefixOf (p ++ "-").data b.data
      · rfl
      · exact absurd hpred (hall b hb)
    rw [hrhs]
    rfl
  · rw [if_neg hf]
    have hne : bs.filter (fun b => List.isPrefixOf (p ++ "-").data b.data) ≠ [] := by
      intro hnil
      exact hf (by rw [hnil]; rfl)
    have hhead : (sortBy (fun a b => jsSortLe (branchCmp p a b))
        (bs.filter (fun b => List.isPrefixOf (p ++ "-").data b.data))).head?.isNone
          = false := by
      match hsf : bs.filter (fun b => List.isPrefixOf (p ++ "-").data b.data) with
      | [] => exact absurd hsf hne
      | x :: xs =>
        rw [hsf]
        match hq : sortBy (fun a b => jsSortLe (branchCmp p a b)) (x :: xs) with
        | [] => exact absurd hq (sortBy_ne_nil _ x xs)
        | y :: ys => rfl
    have hrhs : bs.all (fun b => !(List.isPrefixOf (p ++ "-").data b.data)) = false := by
      match hsf : bs.filter (fun b => List.isPrefixOf (p ++ "-").data b.data) with
      | [] => exact absurd hsf hne
      | x :: xs =>
        have hmemf : x ∈ bs.filter (fun b => List.isPrefixOf (p ++ "-").data b.data) := by
          rw [hsf]
          exact List.mem_cons_self x xs
        have hx := List.mem_filter.mp hmemf
        rw [List.all_eq_false]
        exact ⟨x, hx.1, by simpa using List.isPrefixOf_iff_prefix.mp hx.2⟩
    rw [hhead, hrhs]

/-! Keys of data-model well-formed version strings contain no NaN. -/

theorem wellFormedVersion_noNan (s : String) (h : wellFormedVersion s = true) :
    JsNum.nan ∉ parseVersion s := by
  unfold wellFormedVersion at h
  match hs : splitOnChar '-' s.data with
  | [] =>
    rw [hs] at h
    exact Bool.noConfusion h
  | [m] =>
    rw [hs] at h
    have hwf : wellFormedMain m = true := h
    have hmain : versionMainPart s = m := by
      unfold versionMainPart
      rw [hs]
      rfl
    have hpre : versionPrePart s = [] := by
      unfold versionPrePart
      rw [hs]
      rfl
    unfold parseVersion mainKey
    rw [hpre, hmain]
    intro hmem
    have hmem' : JsNum.nan ∈ (splitOnChar '.' m).map jsToNumberL
        ++ [JsNum.inf, JsNum.inf] := hmem
    rcases List.mem_append.mp hmem' with h1 | h2
    · exact wellFormedMain_key_noNan m hwf h1
    · simp at h2
  | [m, pp] =>
    rw [hs] at h
    have h' : (wellFormedMain m && (matchPre pp).isSome) = true := h
    simp only [Bool.and_eq_true] at h'
    obtain ⟨x, hx⟩ := Option.isSome_iff_exists.mp h'.2
    obtain ⟨r, n⟩ := x
    have hmain : versionMainPart s = m := by
      unfold versionMainPart
      rw [hs]
      rfl
    have hpre : versionPrePart s = pp := by
      unfold versionPrePart
      rw [hs]
      rfl
    have hne : pp ≠ [] := matchPre_ne_nil pp (r, n) hx
    have hempty : pp.isEmpty = false := by
      cases hd : pp with
      | nil => exact absurd hd hne
      | cons c cs => rfl
    unfold parseVersion mainKey
    rw [hpre, hmain, hempty, hx]
    intro hmem
    have hmem' : JsNum.nan ∈ (splitOnChar '.' m).map jsToNumberL
        ++ [JsNum.num r, roundToDouble n] := hmem
    rcases List.mem_append.mp hmem' with h1 | h2
    · exact wellFormedMain_key_noNan m h'.1 h1
    · simp only [List.mem_cons, List.not_mem_nil, or_false] at h2
      rcases h2 with h3 | h3
      · exact JsNum.noConfusion h3
      · exact roundToDouble_ne_nan n h3.symm
  | m :: pp :: q :: rest =>
    rw [hs] at h
    exact Bool.noConfusion h

/-! The claims. -/

/-- C1, counterexample: the claim predicts that for
`"1.0.0-alpha.1-extra"` the pre-release part is the entire remainder
after the first hyphen (`"alpha.1-extra"`) and that the key ends in the
`(-1, -1)` fallback tail; the parser actually keeps only the second
`split('-')` group, so both predictions are false. -/
theorem c1_counterexample :
    versionPrePart "1.0.0-alpha.1-extra" ≠ "alpha.1-extra".data ∧
    parseVersion "1.0.0-alpha.1-extra" ≠
      mainKey "1.0.0-alpha.1-extra" ++ [JsNum.num (-1), JsNum.num (-1)] := by
  decide

/-- C1, amended: `split('-')` splits at every hyphen and the parser
destructures only the first two groups, so the pre-release part of
`"1.0.0-alpha.1-extra"` is `"alpha.1"` — the text after the second
hyphen is discarded.  That part matches `STAGE.NUMBER`, so the key is
`(1, 0, 0, 0, 1)`, not the `(-1, -1)` fallback. -/
theorem c1_amended :
    versionPrePart "1.0.0-alpha.1-extra" = "alpha.1".data ∧
    parseVersion "1.0.0-alpha.1-extra" =
      [JsNum.num 1, JsNum.num 0, JsNum.num 0, JsNum.num 0, JsNum.num 1] := by
  decide

/-- C2, counterexample: the claim says the keys of `"1.2.3"` and
`"1.2.3.0"` compare equal at indices 0 through 3; at index 3 the first
key holds the `Infinity` sentinel while the second holds the numeric
`0`, so they are not equal there and the comparator result is not
"equal". -/
theorem c2_counterexample :
    jsEq ((parseVersion "1.2.3").getD 3 (JsNum.num 0))
      ((parseVersion "1.2.3.0").getD 3 (JsNum.num 0)) = false ∧
    compareVersions "1.2.3" "1.2.3.0" ≠ JsNum.num 0 := by
  decide

/-- C2, amended: comparing `"1.2.3"` with `"1.2.3.0"`, positions 0–2
compare equal; at index 3 the shorter key's `Infinity` sentinel meets
the longer key's plain `0`, so the comparator returns `Infinity`
(ranks `"1.2.3"` greater).  The read-missing-positions-as-`0` rule
applies beyond the shorter key's length, e.g. at index 5. -/
theorem c2_amended :
    (parseVersion "1.2.3").take 3 = (parseVersion "1.2.3.0").take 3 ∧
    (parseVersion "1.2.3").getD 3 (JsNum.num 0) = JsNum.inf ∧
    (parseVersion "1.2.3.0").getD 3 (JsNum.num 0) = JsNum.num 0 ∧
    (parseVersion "1.2.3").getD 5 (JsNum.num 0) = JsNum.num 0 ∧
    compareVersions "1.2.3" "1.2.3.0" = JsNum.inf := by
  decide

/-- C3: the comparator is reflexive — comparing any version string (in
the data model's sense: `MAJOR.MINOR.PATCH` with an optional
`-STAGE.NUMBER` suffix) to itself yields the "equal" result `0`. -/
theorem c3_comparator_reflexive (v : String) (h : wellFormedVersion v = true) :
    compareVersions v v = JsNum.num 0 := by
  unfold compareVersions
  exact compareParts_refl _ (wellFormedVersion_noNan v h)

/-- C3, witness at `"1.2.3-beta.4"`. -/
theorem c3_witness :
    wellFormedVersion "1.2.3-beta.4" = true ∧
    compareVersions "1.2.3-beta.4" "1.2.3-beta.4" = JsNum.num 0 :=
  ⟨by decide, c3_comparator_reflexive "1.2.3-beta.4" (by decide)⟩

/-- C4: on the branch set {pack-1.0.0, pack-1.1.0-beta.2,
pack-2.0.0-alpha.1, lib-9.9.9} with prefix "pack", the selector
returns "pack-2.0.0-alpha.1" (major 2 dominates; lib-9.9.9 fails the
prefix filter). -/
theorem c4_selector_example :
    findLatestBranch
      ["pack-1.0.0", "pack-1.1.0-beta.2", "pack-2.0.0-alpha.1", "lib-9.9.9"]
      "pack" = some "pack-2.0.0-alpha.1" := by
  decide

/-- C5: a well-formed `MAJOR.MINOR.PATCH` string with no pre-release
suffix gets the two `Infinity` sentinels as trailing key components,
and the comparator ranks it strictly greater than every well-formed
pre-release of the same main part. -/
theorem c5_release_outranks_pre (m p : String) (r n : Nat)
    (hm : wellFormedMain m.data = true) (hp : matchPre p.data = some (r, n)) :
    parseVersion m = mainKey m ++ [JsNum.inf, JsNum.inf] ∧
    jsPos (compareVersions m (m ++ "-" ++ p)) = true := by
  have hnd : '-' ∉ m.data := wellFormedMain_no_dash m.data hm
  refine ⟨parseVersion_release m hnd, ?_⟩
  unfold compareVersions
  rw [parseVersion_no_dash m hnd, parseVersion_append_pre m p r n hnd hp,
    compareParts_append _ _ _ (wellFormedMain_key_noNan m.data hm)]
  rfl

/-- C5, witness at `"1.2.3"` against `"1.2.3-alpha.1"`. -/
theorem c5_witness :
    wellFormedMain "1.2.3".data = true ∧
    matchPre "alpha.1".data = some (0, 1) ∧
    parseVersion "1.2.3" = mainKey "1.2.3" ++ [JsNum.inf, JsNum.inf] ∧
    jsPos (compareVersions "1.2.3" ("1.2.3" ++ "-" ++ "alpha.1")) = true := by
  refine ⟨by decide, by decide, ?_, ?_⟩
  · exact (c5_release_outranks_pre "1.2.3" "alpha.1" 0 1 (by decide) (by decide)).1
  · exact (c5_release_outranks_pre "1.2.3" "alpha.1" 0 1 (by decide) (by decide)).2

set_option maxRecDepth 8192 in
set_option exponentiation.threshold 2048 in
/-- C6, counterexample: the claim orders same-stage pre-releases by the
numeric value of the suffix for every pair, but `Number()` rounds the
captured digits to a double.  `alpha.9007199254740992` (2^53) and
`alpha.9007199254740993` (2^53 + 1) have distinct numeric suffixes yet
both round to the double 2^53, so the program compares the two versions
equal (result 0) instead of "less than". -/
theorem c6_counterexample :
    matchPre "alpha.9007199254740992".data = some (0, 9007199254740992) ∧
    matchPre "alpha.9007199254740993".data = some (0, 9007199254740993) ∧
    (9007199254740992 : Nat) < 9007199254740993 ∧
    compareVersions "1.0.0-alpha.9007199254740992"
      "1.0.0-alpha.9007199254740993" = JsNum.num 0 ∧
    jsNeg (compareVersions "1.0.0-alpha.9007199254740992"
      "1.0.0-alpha.9007199254740993") = false := by
  decide

/-- C6, amended: two well-formed pre-releases of the same
`MAJOR.MINOR.PATCH` are ordered first by stage rank (alpha 0 < beta 1 <
rc 2) and, for equal stages, by the numeric value of the pre-release
number, provided both numbers lie below `2 ^ 53` (the double-precision
safe-integer range); at or above `2 ^ 53`, `Number()` rounds the
captured digits and distinct numerals can collapse to the same key
component. -/
theorem c6_pre_ordering (m p1 p2 : String) (r1 n1 r2 n2 : Nat)
    (hm : wellFormedMain m.data = true)
    (h1 : matchPre p1.data = some (r1, n1))
    (h2 : matchPre p2.data = some (r2, n2))
    (hs1 : n1 < 2 ^ 53) (hs2 : n2 < 2 ^ 53)
    (hlt : r1 < r2 ∨ (r1 = r2 ∧ n1 < n2)) :
    jsNeg (compareVersions (m ++ "-" ++ p1) (m ++ "-" ++ p2)) = true := by
  have hnd : '-' ∉ m.data := wellFormedMain_no_dash m.data hm
  unfold compareVersions
  rw [parseVersion_append_pre m p1 r1 n1 hnd h1,
    parseVersion_append_pre m p2 r2 n2 hnd h2,
    roundToDouble_small n1 hs1, roundToDouble_small n2 hs2,
    compareParts_append _ _ _ (wellFormedMain_key_noNan m.data hm),
    compareParts_pair]
  rcases hlt with hr | ⟨hr, hn⟩
  · rw [if_neg (by omega : ¬((r1 : Int) = (r2 : Int)))]
    simp only [jsNeg, decide_eq_true_eq]
    omega
  · subst hr
    rw [if_pos rfl, if_neg (by omega : ¬((n1 : Int) = (n2 : Int)))]
    simp only [jsNeg, decide_eq_true_eq]
    omega

/-- C6, witness: `alpha.2` ranks below `alpha.10` on main `"1.2.3"`
(numeric, not lexicographic, comparison of the suffix). -/
theorem c6_witness :
    matchPre "alpha.2".data = some (0, 2) ∧
    matchPre "alpha.10".data = some (0, 10) ∧
    jsNeg (compareVersions ("1.2.3" ++ "-" ++ "alpha.2")
      ("1.2.3" ++ "-" ++ "alpha.10")) = true :=
  ⟨by decide, by decide,
    c6_pre_ordering "1.2.3" "alpha.2" "alpha.10" 0 2 0 10 (by decide) (by decide)
      (by decide) (by decide) (by decide) (Or.inr ⟨rfl, by decide⟩)⟩

/-- C7: the parser is total — every input string yields a key: the main
key followed by either the `Infinity` sentinels (no pre-release part),
the matched stage rank and number, or the `(-1, -1)` fallback exactly
when the pre-release part does not match the regex; there is no error
branch. -/
theorem c7_parser_total (s : String) :
    parseVersion s = mainKey s ++ [JsNum.inf, JsNum.inf] ∨
    (∃ r n, matchPre (versionPrePart s) = some (r, n) ∧
      parseVersion s = mainKey s ++ [JsNum.num r, roundToDouble n]) ∨
    (matchPre (versionPrePart s) = none ∧
      parseVersion s = mainKey s ++ [JsNum.num (-1), JsNum.num (-1)]) := by
  unfold parseVersion
  by_cases he : (versionPrePart s).isEmpty = true
  · rw [if_pos he]
    exact Or.inl rfl
  · rw [if_neg he]
    cases hm : matchPre (versionPrePart s) with
    | none => exact Or.inr (Or.inr ⟨rfl, rfl⟩)
    | some x =>
      obtain ⟨r, n⟩ := x
      exact Or.inr (Or.inl ⟨r, n, rfl, rfl⟩)

/-- C8: the selector returns the absence marker `none` exactly when no
branch starts with the prefix followed by a hyphen, and otherwise a
branch name; in particular the sole malformed-suffix candidate
`"pack-1.0.0-unknown.5"` is returned, not rejected. -/
theorem c8_none_iff_no_match (bs : List String) (p : String) :
    ((findLatestBranch bs p).isNone =
      bs.all (fun b => !(List.isPrefixOf (p ++ "-").data b.data))) ∧
    findLatestBranch ["pack-1.0.0-unknown.5"] "pack" =
      some "pack-1.0.0-unknown.5" :=
  ⟨findLatestBranch_none_iff bs p, by decide⟩

/-- C9: the comparator is antisymmetric — whenever comparing `a` to `b`
yields a negative result, comparing `b` to `a` yields a positive one
(for all input strings, hypotheses-free about their shape). -/
theorem c9_comparator_antisym (a b : String)
    (h : jsNeg (compareVersions a b) = true) :
    jsPos (compareVersions b a) = true :=
  compareParts_antisym (parseVersion a) (parseVersion b) h

/-- C9, witness: `"1.0.0-alpha.1"` is less than `"1.0.0"` and
conversely. -/
theorem c9_witness :
    jsNeg (compareVersions "1.0.0-alpha.1" "1.0.0") = true ∧
    jsPos (compareVersions "1.0.0" "1.0.0-alpha.1") = true :=
  ⟨by decide, c9_comparator_antisym "1.0.0-alpha.1" "1.0.0" (by decide)⟩

/-- C10: a non-null selector result is an element of the input branch
list and starts with the prefix followed by a hyphen — the selector
never fabricates a name and never returns a branch that failed the
filter. -/
theorem c10_result_membership (bs : List String) (p r : String)
    (h : findLatestBranch bs p = some r) :
    r ∈ bs ∧ List.isPrefixOf (p ++ "-").data r.data = true :=
  findLatestBranch_mem bs p r h

/-- C10, witness on a two-element branch list. -/
theorem c10_witness :
    "pack-1.0.0" ∈ ["pack-1.0.0", "lib-2.0.0"] ∧
    List.isPrefixOf ("pack" ++ "-").data "pack-1.0.0".data = true :=
  c10_result_membership ["pack-1.0.0", "lib-2.0.0"] "pack" "pack-1.0.0" (by decide)

end Sandstone
